import Mathlib

/-!
Verification of the world engine of `DynamicAbstractionSystem`
(`src/world/world.py`): a spatially-partitioned, double-buffered entity
store with a tick loop, radius / rectangle queries and a
reproduction/removal protocol.

The embedding is a direct transcription of `world.py`:
* `Position` is the pydantic model with integer coordinates.
* `Entity` carries the fields of `BaseEntity` that the engine reads
  (`position`, `interaction_radius`, the `death` / `can_interact` flags)
  plus `eid`, a natural number standing for Python object identity
  (`BaseEntity` defines no `__eq__`, so `==` on entities is identity).
* A buffer (`defaultdict(list)`) is an association list from cell keys to
  entity lists; Python dicts have unique keys and preserve insertion
  order, which the association list models exactly.
* Python's `//` on integers floors toward negative infinity, hence
  `Int.fdiv` throughout.
* The per-entity update `obj.tick(...)` is a parameter `step` of
  `tickAll`; its result type `TickResult` covers the result shapes whose
  successors the entity-typed store can hold: `None`, a bare entity, and
  a list (whose elements may or may not be entities).  `tick_all`
  performs no validation of a bare result: it merely reads
  `new_obj.position`, so a non-entity value carrying a numeric
  `position` would be silently hashed and inserted into the next
  generation (a foreign object an entity-valued store cannot
  represent), and only a bare value without a `position` attribute
  raises; those two bare-result paths are outside this embedding.  The
  path where the code raises `ValueError` (from
  `interactable.remove(obj)`) is modelled with `Except String`.
* Python updates may mutate the live objects held by the current
  buffer (`self.position.set_position(...)`, `return self`), and
  `tick_all`'s queries read that live buffer; the second model below
  (`Heap`/`RefBuffer`/`tickAllMut`) transcribes this: the store maps
  cells to object references placed at tick start, while states are
  read from and written to a shared heap during the tick.
-/

set_option autoImplicit false

namespace DynAbs

/-- `Position` from `world.py`: a mutable 2D integer coordinate. -/
structure Position where
  x : Int
  y : Int
deriving DecidableEq

/-- The two engine-relevant flags of `BaseEntity.flags`. -/
structure Flags where
  death : Bool
  can_interact : Bool
deriving DecidableEq

/-- The fields of `BaseEntity` read by the engine, plus `eid` modelling
Python object identity. -/
structure Entity where
  eid : Nat
  position : Position
  interaction_radius : Int
  flags : Flags
deriving DecidableEq

/-- A spatial cell key `(cell_x, cell_y)`. -/
abbrev Cell := Int × Int

/-- One buffer: the `defaultdict(list)` mapping cells to entity lists,
as an insertion-ordered association list with (by construction) unique
keys. -/
abbrev Buffer := List (Cell × List Entity)

/-- `dict.get(cell, [])`: the list stored at `c`, or `[]`. -/
def Buffer.get (b : Buffer) (c : Cell) : List Entity :=
  match b with
  | [] => []
  | (c', l) :: rest => if c' = c then l else Buffer.get rest c

/-- `buffers[i][cell].append(e)` on a `defaultdict(list)`: append to the
existing entry, or create a fresh entry at the end (Python dicts keep
insertion order). -/
def Buffer.insert (b : Buffer) (c : Cell) (e : Entity) : Buffer :=
  match b with
  | [] => [(c, [e])]
  | (c', l) :: rest =>
      if c' = c then (c', l ++ [e]) :: rest else (c', l) :: Buffer.insert rest c e

/-- All entities of a buffer, in dict-iteration order (`world.get_objects`
iterates `.values()` and extends). -/
def Buffer.entities (b : Buffer) : List Entity :=
  match b with
  | [] => []
  | (_, l) :: rest => l ++ Buffer.entities rest

/-- The entities of a buffer as a multiset (generations are compared up
to order). -/
def Buffer.entityMultiset (b : Buffer) : Multiset Entity :=
  (Buffer.entities b : List Entity)

/-- `World.__init__` stores `partition_size` unchecked and creates two
empty buffers with `current_buffer = 0`. -/
structure World where
  partition_size : Int
  bufA : Buffer
  bufB : Buffer
  current : Bool
deriving DecidableEq

/-- `World(partition_size)`: the constructor performs no validation. -/
def World.init (partition_size : Int) : World :=
  { partition_size := partition_size, bufA := [], bufB := [], current := false }

/-- `World._hash_position`: floor-divide each coordinate by
`partition_size` (Python `//`). -/
def hashPosition (ps : Int) (p : Position) : Cell :=
  (Int.fdiv p.x ps, Int.fdiv p.y ps)

/-- `self.buffers[self.current_buffer]`. -/
def World.currentBuf (w : World) : Buffer :=
  if w.current then w.bufB else w.bufA

/-- `World.get_objects`: all entities of the current buffer. -/
def World.getObjects (w : World) : List Entity :=
  Buffer.entities w.currentBuf

/-- `World.add_object`: hash the position and append into the current
buffer. -/
def World.addObject (w : World) (e : Entity) : World :=
  let cell := hashPosition w.partition_size e.position
  if w.current then { w with bufB := Buffer.insert w.bufB cell e }
  else { w with bufA := Buffer.insert w.bufA cell e }

/-- Python `range(lo, hi)` over integers: `[lo, lo+1, ..., hi-1]`. -/
def intRange (lo hi : Int) : List Int :=
  (List.range (hi - lo).toNat).map (fun (i : Nat) => lo + (i : Int))

/-- The `cells_to_check` list of `query_objects_within_radius`:
`r = int(radius // partition_size) + 1`, then all `(cell_x+dx, cell_y+dy)`
for `dx, dy` in `range(-r, r+1)` (dx outer, dy inner). -/
def cellsToCheck (ps x y radius : Int) : List Cell :=
  let cellX := Int.fdiv x ps
  let cellY := Int.fdiv y ps
  let r := Int.fdiv radius ps + 1
  (intRange (-r) (r + 1)).flatMap
    (fun dx => (intRange (-r) (r + 1)).map (fun dy => (cellX + dx, cellY + dy)))

/-- The Euclidean filter of the radius query:
`dx*dx + dy*dy <= radius*radius`. -/
def withinRadius (x y radius : Int) (e : Entity) : Bool :=
  decide ((e.position.x - x) * (e.position.x - x)
    + (e.position.y - y) * (e.position.y - y) ≤ radius * radius)

/-- `World.query_objects_within_radius`: scan `cells_to_check`, keep the
entities passing the Euclidean filter, in scan order. -/
def World.queryObjectsWithinRadius (w : World) (x y radius : Int) : List Entity :=
  (cellsToCheck w.partition_size x y radius).flatMap
    (fun c => (Buffer.get w.currentBuf c).filter (withinRadius x y radius))

/-- `World.query_objects_in_range`: scan the cell rectangle from
`cell_of(x1,y1)` to `cell_of(x2,y2)` and keep entities with
`x1 <= obj_x <= x2 and y1 <= obj_y <= y2`. -/
def World.queryObjectsInRange (w : World) (x1 y1 x2 y2 : Int) : List Entity :=
  (intRange (Int.fdiv x1 w.partition_size) (Int.fdiv x2 w.partition_size + 1)).flatMap
    (fun cx =>
      (intRange (Int.fdiv y1 w.partition_size) (Int.fdiv y2 w.partition_size + 1)).flatMap
        (fun cy =>
          (Buffer.get w.currentBuf (cx, cy)).filter
            (fun e => decide (x1 ≤ e.position.x ∧ e.position.x ≤ x2
              ∧ y1 ≤ e.position.y ∧ e.position.y ≤ y2))))

/-- An element of a list returned by an entity update: an entity, or any
non-entity value (which `tick_all` tests with `isinstance(item, BaseEntity)`). -/
inductive Elem where
  | ent (e : Entity)
  | junk
deriving DecidableEq

/-- The value returned by `obj.tick(...)`: `None`, a bare entity, or a
list.  (A bare non-entity result is not validated by `tick_all` and is
not representable in an entity-valued store; see the module comment.) -/
inductive TickResult where
  | none
  | one (e : Entity)
  | many (l : List Elem)
deriving DecidableEq

/-- A fixed entity-update behaviour: what `obj.tick(interactable)`
returns for a given entity and neighbour argument (`Option.none` models
the call `obj.tick()` with absent `interactable`). -/
abbrev Step := Entity → Option (List Entity) → TickResult

/-- `list.remove(x)` where `==` is Python object identity: delete the
first element whose identity matches `target`; `Option.none` models the
`ValueError` raised when no element matches. -/
def removeFirstById (l : List Entity) (target : Nat) : Option (List Entity) :=
  match l with
  | [] => Option.none
  | e :: rest =>
      if e.eid = target then some rest
      else (removeFirstById rest target).map (fun r => e :: r)

/-- The `interactable` list computed for a `can_interact` entity during
`tick_all`: radius query at the entity's own position, then
`interactable.remove(obj)`. -/
def World.interactableFor (w : World) (obj : Entity) : Option (List Entity) :=
  removeFirstById
    (w.queryObjectsWithinRadius obj.position.x obj.position.y obj.interaction_radius)
    obj.eid

/-- The message of the `ValueError` raised by `interactable.remove(obj)`
when `obj` is not in the list. -/
def valueErr : String := "ValueError: list.remove(x): x not in list"

/-- The update result obtained for one (non-death) entity during
`tick_all`: neighbours are computed and passed iff `can_interact`. -/
def stepResult (step : Step) (w : World) (obj : Entity) : Except String TickResult :=
  if obj.flags.can_interact then
    match w.interactableFor obj with
    | some inter => Except.ok (step obj (some inter))
    | Option.none => Except.error valueErr
  else Except.ok (step obj Option.none)

/-- Insertion of one update result into the next buffer (`tick_all` lines
142-153): `None` inserts nothing; a list inserts its entity elements,
silently skipping non-entities; a bare entity is inserted by the cell of
its own position. -/
def applyResult (ps : Int) (next : Buffer) : TickResult → Except String Buffer
  | TickResult.none => Except.ok next
  | TickResult.many l =>
      Except.ok (l.foldl
        (fun b el =>
          match el with
          | Elem.ent e => Buffer.insert b (hashPosition ps e.position) e
          | Elem.junk => b)
        next)
  | TickResult.one e => Except.ok (Buffer.insert next (hashPosition ps e.position) e)

/-- The body of the `tick_all` loop for one entity: skip it if its
`death` flag is set, otherwise compute its update result and insert it
into the next buffer. -/
def processObj (step : Step) (w : World) (next : Buffer) (obj : Entity) :
    Except String Buffer :=
  if obj.flags.death then Except.ok next
  else
    match stepResult step w obj with
    | Except.error msg => Except.error msg
    | Except.ok res => applyResult w.partition_size next res

/-- The `tick_all` loop over a given iteration order `l` of the current
generation's entities, threading the next buffer; an uncaught exception
aborts the loop. -/
def processList (step : Step) (w : World) (l : List Entity) (next : Buffer) :
    Except String Buffer :=
  match l with
  | [] => Except.ok next
  | obj :: rest =>
      match processObj step w next obj with
      | Except.error msg => Except.error msg
      | Except.ok next2 => processList step w rest next2

/-- `World.tick_all`: clear the next buffer, process every
current-generation entity in dict-iteration order, then swap buffers. -/
def tickAll (step : Step) (w : World) : Except String World :=
  match processList step w (Buffer.entities w.currentBuf) [] with
  | Except.error msg => Except.error msg
  | Except.ok next =>
      Except.ok
        (if w.current then { w with bufA := next, current := false }
         else { w with bufB := next, current := true })

/-! Derived notions used to state and prove the claims. -/

/-- The entity elements of a returned list, in order (the non-entities
are exactly the elements `tick_all` skips). -/
def entsOf (l : List Elem) : List Entity :=
  l.filterMap (fun el => match el with | Elem.ent e => some e | Elem.junk => Option.none)

/-- The successor entities contained in an update result. -/
def TickResult.entities : TickResult → List Entity
  | TickResult.none => []
  | TickResult.one e => [e]
  | TickResult.many l => entsOf l

/-- The successor entities one entity contributes to the next generation
(`Except.error` on the paths where `tick_all` raises); a death-flagged
entity contributes nothing. -/
def contribution (step : Step) (w : World) (obj : Entity) : Except String (List Entity) :=
  if obj.flags.death then Except.ok []
  else
    match stepResult step w obj with
    | Except.error msg => Except.error msg
    | Except.ok res => Except.ok res.entities

/-- The contribution as a multiset (empty on error). -/
def contribMultiset (step : Step) (w : World) (obj : Entity) : Multiset Entity :=
  match contribution step w obj with
  | Except.ok es => (es : List Entity)
  | Except.error _ => 0

/-- Insert a list of entities into a buffer, each hashed by its own
position. -/
def insertList (ps : Int) (b : Buffer) (es : List Entity) : Buffer :=
  es.foldl (fun acc e => Buffer.insert acc (hashPosition ps e.position) e) b

/-- The keys of a buffer (a Python dict has each key at most once). -/
def Buffer.keys (b : Buffer) : List Cell := b.map Prod.fst

/-- The store invariant of the spatial index: keys are unique (as in any
Python dict) and every entity stored under cell key `C` satisfies
`cell_of(entity.position) == C`. -/
def Buffer.WF (ps : Int) (b : Buffer) : Prop :=
  (Buffer.keys b).Nodup ∧ ∀ p ∈ b, ∀ e ∈ p.2, hashPosition ps e.position = p.1

instance (ps : Int) (b : Buffer) : Decidable (Buffer.WF ps b) := by
  unfold Buffer.WF; infer_instance

/-- Ceiling division `ceil(a / b)` (for `b > 0`), as used by the spec's
wording of the radius query's cell scan. -/
def ceilDiv (a b : Int) : Int := -(Int.fdiv (-a) b)

/-!
### The live-object model of the tick

`tick_all` iterates the current buffer, a dict whose lists hold
*references* to live Python objects.  The repository's `tick`
implementations mutate their own object in place and return it
(`self.position.set_position(...)`, `return self` in
`objects.py`), and the radius query inside the loop reads
`self.buffers[self.current_buffer]` — the live dict — so an entity
processed later in the tick observes the already-mutated state of
entities processed earlier, while the *placement* of references in cells
is the tick-start placement (nothing is re-hashed mid-tick).

The model: `Ref` is a Python object identity, a `Heap` gives each
reference its current state, and a `RefBuffer` is the current buffer's
cell-to-references dict.  `MutStep` is the shape of the repository's
updates: read own state and the neighbour list (by live values), return
the own, possibly mutated, state (`return self`).
-/

/-- A Python object identity. -/
abbrev Ref := Nat

/-- The live object store: the current state of every object, read and
written in place during the tick. -/
abbrev Heap := Ref → Entity

/-- The current buffer as Python holds it: cells to lists of object
references; the placement is fixed at tick start and not updated when a
position is mutated mid-tick. -/
abbrev RefBuffer := List (Cell × List Ref)

/-- In-place update of one object (`self.position.set_position(...)`
etc.). -/
def updateHeap (h : Heap) (r : Ref) (e : Entity) : Heap :=
  fun r' => if r' = r then e else h r'

/-- `dict.get(cell, [])` on the reference buffer. -/
def RefBuffer.get (b : RefBuffer) (c : Cell) : List Ref :=
  match b with
  | [] => []
  | (c', l) :: rest => if c' = c then l else RefBuffer.get rest c

/-- All stored references, in dict-iteration order. -/
def RefBuffer.refs (b : RefBuffer) : List Ref :=
  match b with
  | [] => []
  | (_, l) :: rest => l ++ RefBuffer.refs rest

/-- `query_objects_within_radius` as executed mid-tick: the scanned cell
block is the tick-start placement, but each candidate's position is read
from the live heap. -/
def queryMut (ps : Int) (h : Heap) (b : RefBuffer) (x y radius : Int) : List Ref :=
  (cellsToCheck ps x y radius).flatMap
    (fun c => (RefBuffer.get b c).filter (fun r => withinRadius x y radius (h r)))

/-- `interactable.remove(obj)` on references: identity equality is
equality of references; `Option.none` models the `ValueError` when the
reference is absent. -/
def removeFirstRef (l : List Ref) (target : Ref) : Option (List Ref) :=
  match l with
  | [] => Option.none
  | r :: rest =>
      if r = target then some rest
      else (removeFirstRef rest target).map (fun t => r :: t)

/-- The neighbour list passed to the update of the object `r` at the
moment it is processed: live radius query at its own live position, then
`interactable.remove(obj)`. -/
def interactableMutFor (ps : Int) (h : Heap) (b : RefBuffer) (r : Ref) :
    Option (List Ref) :=
  removeFirstRef
    (queryMut ps h b (h r).position.x (h r).position.y (h r).interaction_radius) r

/-- A self-mutating update behaviour, the shape of the repository's
`tick` implementations: read the own state and the neighbour list (by
live values) and return the own — possibly mutated — state
(`return self`). -/
abbrev MutStep := Entity → Option (List Entity) → Entity

/-- The `tick_all` loop body for one reference, over the live store:
skip if death-flagged, compute the live neighbour list iff
`can_interact`, apply the in-place update, and append the reference to
the next buffer under the cell of its *post-update* position. -/
def processRef (step : MutStep) (ps : Int) (b : RefBuffer) (h : Heap)
    (next : List (Cell × Ref)) (r : Ref) : Option (Heap × List (Cell × Ref)) :=
  let e := h r
  if e.flags.death then some (h, next)
  else if e.flags.can_interact then
    match interactableMutFor ps h b r with
    | Option.none => Option.none
    | some inter =>
        let e2 := step e (some (inter.map h))
        some (updateHeap h r e2, next ++ [(hashPosition ps e2.position, r)])
  else
    let e2 := step e Option.none
    some (updateHeap h r e2, next ++ [(hashPosition ps e2.position, r)])

/-- The `tick_all` loop over the live store, in the given iteration
order. -/
def processRefs (step : MutStep) (ps : Int) (b : RefBuffer) (h : Heap)
    (next : List (Cell × Ref)) : List Ref → Option (Heap × List (Cell × Ref))
  | [] => some (h, next)
  | r :: rest =>
      match processRef step ps b h next r with
      | Option.none => Option.none
      | some st => processRefs step ps b st.1 st.2 rest

/-- `tick_all` with live, in-place-mutating updates: process the stored
references in iteration order `order`, reading and writing the shared
heap; the next buffer receives references. -/
def tickAllMut (step : MutStep) (ps : Int) (h : Heap) (b : RefBuffer)
    (order : List Ref) : Option (Heap × List (Cell × Ref)) :=
  processRefs step ps b h [] order

/-- The observable next generation: the final states of the inserted
references. -/
def nextGenEntities (h : Heap) (next : List (Cell × Ref)) : List Entity :=
  next.map (fun p => h p.2)

/-- The cell invariant of the *live* store: cell keys are unique, every
stored reference sits in the cell of its current live position, and no
reference is stored twice.  It holds at tick start for a store built by
`add_object`, and mid-tick as long as no earlier update has moved an
object across a cell boundary. -/
def RefBuffer.LiveWF (ps : Int) (h : Heap) (b : RefBuffer) : Prop :=
  (b.map Prod.fst).Nodup
  ∧ (∀ p ∈ b, ∀ r ∈ p.2, hashPosition ps (h r).position = p.1)
  ∧ (RefBuffer.refs b).Nodup

instance (ps : Int) (h : Heap) (b : RefBuffer) : Decidable (RefBuffer.LiveWF ps h b) := by
  unfold RefBuffer.LiveWF
  infer_instance

/-! Concrete worlds and update behaviours used to evaluate the claims on
explicit inputs. -/

/-- An update behaviour that returns the entity itself unchanged. -/
def stepOne : Step := fun e _ => TickResult.one e

/-- An update behaviour whose list result contains a non-entity element. -/
def junkStep : Step := fun _ _ => TickResult.many [Elem.junk]

def entC1a : Entity := ⟨0, ⟨0, 0⟩, 0, ⟨false, false⟩⟩
def entC1b : Entity := ⟨1, ⟨15, 0⟩, 0, ⟨false, false⟩⟩
def wC1 : World := ((World.init 10).addObject entC1a).addObject entC1b
def bC1 : Buffer := [((1, 0), [entC1b]), ((0, 0), [entC1a])]
def wC1out : World :=
  ⟨10, [((0, 0), [entC1a]), ((1, 0), [entC1b])],
    [((0, 0), [entC1a]), ((1, 0), [entC1b])], true⟩

def entC2a : Entity := ⟨0, ⟨0, 0⟩, 5, ⟨false, true⟩⟩
def entC2b : Entity := ⟨1, ⟨1, 0⟩, 0, ⟨true, false⟩⟩
def wC2 : World := ((World.init 10).addObject entC2a).addObject entC2b

def entC3a : Entity := ⟨0, ⟨0, 0⟩, 0, ⟨false, false⟩⟩
def entC3b : Entity := ⟨1, ⟨25, 0⟩, 0, ⟨false, false⟩⟩

/-- A reproducing update behaviour: every entity returns `[self, offspring]`. -/
def stepRepro : Step := fun e _ => TickResult.many [Elem.ent e, Elem.ent entC3b]

def wC3 : World := (World.init 10).addObject entC3a
def wC3out : World :=
  ⟨10, [((0, 0), [entC3a])], [((0, 0), [entC3a]), ((2, 0), [entC3b])], true⟩

def entC4a : Entity := ⟨0, ⟨0, 0⟩, 0, ⟨false, false⟩⟩
def entC4b : Entity := ⟨1, ⟨5, 0⟩, 0, ⟨false, false⟩⟩
def entC4c : Entity := ⟨2, ⟨20, 0⟩, 0, ⟨false, false⟩⟩
def wC4 : World :=
  (((World.init 10).addObject entC4a).addObject entC4b).addObject entC4c

def entC7 : Entity := ⟨0, ⟨0, 0⟩, 0, ⟨false, false⟩⟩
def wC7 : World := (World.init 10).addObject entC7
def wC7out : World := ⟨10, [((0, 0), [entC7])], [], true⟩

def entC8a : Entity := ⟨0, ⟨3, 4⟩, 0, ⟨false, true⟩⟩
def entC8b : Entity := ⟨1, ⟨3, 4⟩, 0, ⟨false, false⟩⟩
def wC8 : World := ((World.init 10).addObject entC8a).addObject entC8b

def entC9dead : Entity := ⟨0, ⟨0, 0⟩, 0, ⟨true, false⟩⟩
def entC9live : Entity := ⟨1, ⟨2, 0⟩, 0, ⟨false, false⟩⟩
def wC9 : World := ((World.init 10).addObject entC9dead).addObject entC9live
def wC9out : World :=
  ⟨10, [((0, 0), [entC9dead, entC9live])], [((0, 0), [entC9live])], true⟩

def wC10 : World := (World.init 10).addObject ⟨0, ⟨4, 0⟩, 0, ⟨false, false⟩⟩

/-- A mover: `TestVelocityObject.tick` mutates its own position by its
velocity each tick and returns itself; here velocity (10, 0). -/
def entMover : Entity := ⟨0, ⟨50, 0⟩, 0, ⟨false, false⟩⟩

/-- The mover's state after one update. -/
def entMoverMoved : Entity := ⟨0, ⟨60, 0⟩, 0, ⟨false, false⟩⟩

/-- A neighbour-sensitive entity (the shape of `DefaultCell` /
`DebugRenderObject`): its successor state depends on the neighbour list
it is passed; here it steps in y iff it saw a neighbour. -/
def entSeeker : Entity := ⟨1, ⟨0, 0⟩, 50, ⟨false, true⟩⟩

/-- The seeker's state after an update that saw a neighbour. -/
def entSeekerMoved : Entity := ⟨1, ⟨0, 1⟩, 50, ⟨false, true⟩⟩

/-- The live update behaviour of the mover/seeker pair: the mover (eid 0)
shifts x by 10; the seeker moves one step in y exactly when its
neighbour list is nonempty. -/
def stepMut : MutStep := fun e inter =>
  if e.eid = 0 then { e with position := ⟨e.position.x + 10, e.position.y⟩ }
  else
    match inter with
    | some (_ :: _) => { e with position := ⟨e.position.x, e.position.y + 1⟩ }
    | _ => e

/-- The tick-start heap: reference 0 is the mover, reference 1 the
seeker. -/
def heapMut : Heap := fun r => if r = 0 then entMover else entSeeker

/-- The tick-start buffer (partition size 10): the mover's reference in
cell (5,0), the seeker's in cell (0,0); stored iteration order `[0, 1]`. -/
def bufMut : RefBuffer := [((5, 0), [0]), ((0, 0), [1])]

/-- Tick-start live store for the C2 witness: reference 0 is the live
interacting entity `entC2a`, reference 1 the death-flagged `entC2b`
(both hash to cell (0,0) at partition size 10). -/
def heapC2m : Heap := fun r => if r = 0 then entC2a else entC2b

def bufC2m : RefBuffer := [((0, 0), [0, 1])]

/-- A mid-tick heap: the interacting entity has already been moved
in place from (0,0) to (3,0) — within its cell, so the live store still
satisfies the cell invariant. -/
def heapC2mid : Heap := updateHeap heapC2m 0 ⟨0, ⟨3, 0⟩, 5, ⟨false, true⟩⟩

/-! ### Lemmas about `intRange` and `cellsToCheck` -/

theorem mem_intRange {lo hi a : Int} : a ∈ intRange lo hi ↔ lo ≤ a ∧ a < hi := by
  constructor
  · intro h
    obtain ⟨i, hmem, hfa⟩ := List.mem_map.mp h
    rw [List.mem_range] at hmem
    subst hfa
    omega
  · rintro ⟨h1, h2⟩
    exact List.mem_map.mpr ⟨(a - lo).toNat, List.mem_range.mpr (by omega), by omega⟩

theorem intRange_nodup (lo hi : Int) : (intRange lo hi).Nodup := by
  refine List.Nodup.map ?_ (List.nodup_range _)
  intro i j h
  have h' : lo + (i : Int) = lo + (j : Int) := h
  omega

theorem mem_cellsToCheck {ps x y radius : Int} {c : Cell} :
    c ∈ cellsToCheck ps x y radius ↔
      |c.1 - Int.fdiv x ps| ≤ Int.fdiv radius ps + 1
        ∧ |c.2 - Int.fdiv y ps| ≤ Int.fdiv radius ps + 1 := by
  obtain ⟨c1, c2⟩ := c
  unfold cellsToCheck
  simp only [List.mem_flatMap, List.mem_map, mem_intRange, Prod.mk.injEq, abs_le]
  constructor
  · rintro ⟨dx, ⟨h1, h2⟩, dy, ⟨h3, h4⟩, rfl, rfl⟩
    omega
  · rintro ⟨hx, hy⟩
    exact ⟨c1 - Int.fdiv x ps, by omega, c2 - Int.fdiv y ps, by omega, by omega, by omega⟩

theorem cellsToCheck_nodup (ps x y radius : Int) : (cellsToCheck ps x y radius).Nodup := by
  unfold cellsToCheck
  refine List.nodup_flatMap.mpr ⟨fun dx _ => ?_, ?_⟩
  · exact (intRange_nodup _ _).map (fun i j h => by
      have := congrArg Prod.snd h; simpa using this)
  · refine (intRange_nodup _ _).imp ?_
    intro dx1 dx2 hne p hp1 hp2
    simp only [List.mem_map] at hp1 hp2
    obtain ⟨dy1, _, rfl⟩ := hp1
    obtain ⟨dy2, _, h⟩ := hp2
    have := congrArg Prod.fst h
    simp only at this
    omega

/-! ### Lemmas about buffers -/

theorem Buffer.get_eq_nil {b : Buffer} {c : Cell} (h : c ∉ Buffer.keys b) :
    Buffer.get b c = [] := by
  induction b with
  | nil => rfl
  | cons p rest ih =>
    obtain ⟨k, l⟩ := p
    simp only [Buffer.keys, List.map_cons, List.mem_cons] at h
    unfold Buffer.get
    rw [if_neg (by tauto)]
    exact ih (by tauto)

theorem Buffer.get_cons {k : Cell} {l : List Entity} {rest : Buffer} {c : Cell} :
    Buffer.get ((k, l) :: rest) c = if k = c then l else Buffer.get rest c := rfl

theorem Buffer.get_cons_ne {k : Cell} {l : List Entity} {rest : Buffer} {c : Cell}
    (h : k ≠ c) : Buffer.get ((k, l) :: rest) c = Buffer.get rest c := by
  rw [Buffer.get_cons, if_neg h]

theorem Buffer.mem_of_mem_get {b : Buffer} {c : Cell} {e : Entity}
    (h : e ∈ Buffer.get b c) : ∃ l, (c, l) ∈ b ∧ e ∈ l := by
  induction b with
  | nil => simp [Buffer.get] at h
  | cons p rest ih =>
    obtain ⟨k, l⟩ := p
    unfold Buffer.get at h
    by_cases hk : k = c
    · subst hk
      rw [if_pos rfl] at h
      exact ⟨l, List.mem_cons_self _ _, h⟩
    · rw [if_neg hk] at h
      obtain ⟨l', hl', he⟩ := ih h
      exact ⟨l', List.mem_cons_of_mem _ hl', he⟩

theorem Buffer.mem_entities {b : Buffer} {e : Entity} :
    e ∈ Buffer.entities b ↔ ∃ p ∈ b, e ∈ p.2 := by
  induction b with
  | nil => simp [Buffer.entities]
  | cons p rest ih =>
    obtain ⟨k, l⟩ := p
    unfold Buffer.entities
    simp only [List.mem_append, ih, List.mem_cons]
    constructor
    · rintro (h | ⟨q, hq, he⟩)
      · exact ⟨(k, l), Or.inl rfl, h⟩
      · exact ⟨q, Or.inr hq, he⟩
    · rintro ⟨q, (rfl | hq), he⟩
      · exact Or.inl he
      · exact Or.inr ⟨q, hq, he⟩

theorem Buffer.mem_entities_of_mem_get {b : Buffer} {c : Cell} {e : Entity}
    (h : e ∈ Buffer.get b c) : e ∈ Buffer.entities b := by
  obtain ⟨l, hl, he⟩ := Buffer.mem_of_mem_get h
  exact Buffer.mem_entities.mpr ⟨(c, l), hl, he⟩

theorem Buffer.get_of_mem {b : Buffer} {c : Cell} {l : List Entity}
    (hnd : (Buffer.keys b).Nodup) (h : (c, l) ∈ b) : Buffer.get b c = l := by
  induction b with
  | nil => simp at h
  | cons p rest ih =>
    obtain ⟨k, l'⟩ := p
    simp only [Buffer.keys, List.map_cons, List.nodup_cons] at hnd
    rcases List.mem_cons.mp h with heq | hmem
    · simp only [Prod.mk.injEq] at heq
      obtain ⟨rfl, rfl⟩ := heq
      rw [Buffer.get_cons, if_pos rfl]
    · have hkc : k ≠ c := by
        intro hkc
        subst hkc
        exact hnd.1 (List.mem_map.mpr ⟨(k, l), hmem, rfl⟩)
      rw [Buffer.get_cons_ne hkc]
      exact ih hnd.2 hmem

theorem Buffer.mem_keys_insert {b : Buffer} {c c' : Cell} {e : Entity}
    (h : c' ∈ Buffer.keys (Buffer.insert b c e)) : c' ∈ Buffer.keys b ∨ c' = c := by
  induction b with
  | nil =>
    right
    simpa [Buffer.insert, Buffer.keys] using h
  | cons p rest ih =>
    obtain ⟨k, l⟩ := p
    rw [show Buffer.insert ((k, l) :: rest) c e
        = if k = c then (k, l ++ [e]) :: rest else (k, l) :: Buffer.insert rest c e
      from rfl] at h
    by_cases hk : k = c
    · rw [if_pos hk] at h
      exact Or.inl h
    · rw [if_neg hk] at h
      simp only [Buffer.keys, List.map_cons, List.mem_cons] at h ⊢
      rcases h with h | h
      · exact Or.inl (Or.inl h)
      · rcases ih h with h' | h'
        · exact Or.inl (Or.inr h')
        · exact Or.inr h'

theorem Buffer.WF_insert {ps : Int} {b : Buffer} {e : Entity}
    (h : Buffer.WF ps b) :
    Buffer.WF ps (Buffer.insert b (hashPosition ps e.position) e) := by
  obtain ⟨hnd, hcell⟩ := h
  induction b with
  | nil =>
    refine ⟨by simp [Buffer.insert, Buffer.keys], ?_⟩
    intro p hp e' he'
    simp only [Buffer.insert, List.mem_singleton] at hp
    subst hp
    simp only [List.mem_singleton] at he'
    subst he'
    rfl
  | cons q rest ih =>
    obtain ⟨k, l⟩ := q
    simp only [Buffer.keys, List.map_cons, List.nodup_cons] at hnd
    unfold Buffer.insert
    by_cases hk : k = hashPosition ps e.position
    · rw [if_pos hk]
      refine ⟨?_, ?_⟩
      · simp only [Buffer.keys, List.map_cons, List.nodup_cons]
        exact hnd
      · intro p hp e' he'
        rcases List.mem_cons.mp hp with rfl | hmem
        · rcases List.mem_append.mp he' with h' | h'
          · exact hcell (k, l) (List.mem_cons_self _ _) e' h'
          · simp only [List.mem_singleton] at h'
            subst h'
            exact hk.symm
        · exact hcell p (List.mem_cons_of_mem _ hmem) e' he'
    · rw [if_neg hk]
      have hrest : ∀ p ∈ rest, ∀ e' ∈ p.2, hashPosition ps e'.position = p.1 :=
        fun p hp => hcell p (List.mem_cons_of_mem _ hp)
      obtain ⟨hnd', hcell'⟩ := ih hnd.2 hrest
      refine ⟨?_, ?_⟩
      · simp only [Buffer.keys, List.map_cons, List.nodup_cons]
        refine ⟨?_, hnd'⟩
        intro hmem
        rcases Buffer.mem_keys_insert hmem with h' | h'
        · exact hnd.1 h'
        · exact hk h'
      · intro p hp e' he'
        rcases List.mem_cons.mp hp with rfl | hmem
        · exact hcell (k, l) (List.mem_cons_self _ _) e' he'
        · exact hcell' p hmem e' he'

theorem Buffer.entities_insert_perm (b : Buffer) (c : Cell) (e : Entity) :
    (Buffer.entities (Buffer.insert b c e)).Perm (e :: Buffer.entities b) := by
  induction b with
  | nil => simp [Buffer.insert, Buffer.entities]
  | cons p rest ih =>
    obtain ⟨k, l⟩ := p
    unfold Buffer.insert
    by_cases hk : k = c
    · rw [if_pos hk]
      show ((l ++ [e]) ++ Buffer.entities rest).Perm (e :: (l ++ Buffer.entities rest))
      rw [List.append_assoc]
      exact List.perm_middle
    · rw [if_neg hk]
      show (l ++ Buffer.entities (Buffer.insert rest c e)).Perm
        (e :: (l ++ Buffer.entities rest))
      exact ((ih.append_left l).trans List.perm_middle)

theorem Buffer.entityMultiset_insert (b : Buffer) (c : Cell) (e : Entity) :
    Buffer.entityMultiset (Buffer.insert b c e) = e ::ₘ Buffer.entityMultiset b := by
  unfold Buffer.entityMultiset
  rw [show (e ::ₘ (Buffer.entities b : Multiset Entity))
      = ((e :: Buffer.entities b : List Entity) : Multiset Entity) from rfl]
  exact Multiset.coe_eq_coe.mpr (Buffer.entities_insert_perm b c e)

/-! ### Integer floor-division bounds for the cell-coverage argument -/

theorem ediv_add_le {a b c : Int} (hc : 0 < c) : (a + b) / c ≤ a / c + b / c + 1 := by
  have ha : a < (a / c + 1) * c := Int.lt_ediv_add_one_mul_self a hc
  have hb : b < (b / c + 1) * c := Int.lt_ediv_add_one_mul_self b hc
  have h1 : a + b < (a / c + b / c + 2) * c := by nlinarith
  have h2 : (a + b) / c < a / c + b / c + 2 := (Int.ediv_lt_iff_lt_mul hc).mpr h1
  omega

theorem le_ediv_add {a b c : Int} (hc : 0 < c) : a / c + b / c ≤ (a + b) / c := by
  rw [Int.le_ediv_iff_mul_le hc]
  have ha : a / c * c ≤ a := Int.ediv_mul_le a (by omega)
  have hb : b / c * c ≤ b := Int.ediv_mul_le b (by omega)
  nlinarith

theorem fdiv_shift_bound {ps x d r : Int} (hps : 0 < ps) (hd : |d| ≤ r) :
    |Int.fdiv (x + d) ps - Int.fdiv x ps| ≤ Int.fdiv r ps + 1 := by
  have hps' : (0 : Int) ≤ ps := le_of_lt hps
  rw [Int.fdiv_eq_ediv _ hps', Int.fdiv_eq_ediv _ hps', Int.fdiv_eq_ediv _ hps']
  rw [abs_le] at hd ⊢
  constructor
  · have h1 : (x + -r) / ps ≤ (x + d) / ps := Int.ediv_le_ediv hps (by omega)
    have h2 : x / ps + (-r) / ps ≤ (x + -r) / ps := le_ediv_add hps
    have h3 : (r + -r) / ps ≤ r / ps + (-r) / ps + 1 := ediv_add_le hps
    have h4 : (r + -r) / ps = 0 := by simp
    omega
  · have h1 : (x + d) / ps ≤ (x + r) / ps := Int.ediv_le_ediv hps (by omega)
    have h2 : (x + r) / ps ≤ x / ps + r / ps + 1 := ediv_add_le hps
    omega

theorem abs_le_of_mul_self_le {d r : Int} (hr : 0 ≤ r) (h : d * d ≤ r * r) : |d| ≤ r := by
  have h2 : |d| ≤ |r| := abs_le_iff_mul_self_le.mpr h
  rwa [abs_of_nonneg hr] at h2

/-- Cell coverage of the radius query: with a positive partition size and
a nonnegative radius, the cell of any entity passing the Euclidean filter
is among the scanned cells. -/
theorem hash_mem_cellsToCheck {ps x y radius : Int} {e : Entity}
    (hps : 0 < ps) (hr : 0 ≤ radius) (h : withinRadius x y radius e = true) :
    hashPosition ps e.position ∈ cellsToCheck ps x y radius := by
  rw [mem_cellsToCheck]
  unfold withinRadius at h
  rw [decide_eq_true_eq] at h
  have hdx : |e.position.x - x| ≤ radius :=
    abs_le_of_mul_self_le hr (by nlinarith [mul_self_nonneg (e.position.y - y)])
  have hdy : |e.position.y - y| ≤ radius :=
    abs_le_of_mul_self_le hr (by nlinarith [mul_self_nonneg (e.position.x - x)])
  constructor
  · show |Int.fdiv e.position.x ps - Int.fdiv x ps| ≤ Int.fdiv radius ps + 1
    have hx : e.position.x = x + (e.position.x - x) := by omega
    rw [hx]
    exact fdiv_shift_bound hps hdx
  · show |Int.fdiv e.position.y ps - Int.fdiv y ps| ≤ Int.fdiv radius ps + 1
    have hy : e.position.y = y + (e.position.y - y) := by omega
    rw [hy]
    exact fdiv_shift_bound hps hdy

/-! ### The radius query returns exactly the stored matching entities -/

theorem flatMapCongr {α β : Type} {l : List α} {f g : α → List β}
    (h : ∀ a ∈ l, f a = g a) : l.flatMap f = l.flatMap g := by
  induction l with
  | nil => rfl
  | cons a rest ih =>
    rw [List.flatMap_cons, List.flatMap_cons, h a (List.mem_cons_self _ _),
      ih (fun a' ha' => h a' (List.mem_cons_of_mem _ ha'))]

theorem flatMap_nil_fun {α β : Type} (l : List α) :
    l.flatMap (fun _ => ([] : List β)) = [] := by
  induction l with
  | nil => rfl
  | cons a rest ih => rw [List.flatMap_cons, List.nil_append, ih]

/-- Scanning any duplicate-free cell list that covers (at least) the cells
of all entities matching the filter collects exactly the stored matching
entities, up to order. -/
theorem scan_filter_perm {ps : Int} {b : Buffer} {p : Entity → Bool} {cells : List Cell}
    (hwf : Buffer.WF ps b) (hnd : cells.Nodup)
    (hcov : ∀ e ∈ Buffer.entities b, p e = true → hashPosition ps e.position ∈ cells) :
    (cells.flatMap (fun c => (Buffer.get b c).filter p)).Perm
      ((Buffer.entities b).filter p) := by
  induction b generalizing cells with
  | nil =>
    have h1 : cells.flatMap (fun c => (Buffer.get ([] : Buffer) c).filter p)
        = cells.flatMap (fun _ => ([] : List Entity)) := flatMapCongr (fun a _ => rfl)
    rw [h1, flatMap_nil_fun]
    exact List.Perm.refl _
  | cons entry rest ih =>
    obtain ⟨k, l⟩ := entry
    obtain ⟨hndk, hcell⟩ := hwf
    simp only [Buffer.keys, List.map_cons, List.nodup_cons] at hndk
    have hwfrest : Buffer.WF ps rest :=
      ⟨hndk.2, fun q hq => hcell q (List.mem_cons_of_mem _ hq)⟩
    have hlk : ∀ e ∈ l, hashPosition ps e.position = k :=
      hcell (k, l) (List.mem_cons_self _ _)
    have hmem_cons : ∀ e ∈ Buffer.entities rest, e ∈ Buffer.entities ((k, l) :: rest) := by
      intro e he
      show e ∈ l ++ Buffer.entities rest
      exact List.mem_append.mpr (Or.inr he)
    by_cases hk : k ∈ cells
    · obtain ⟨s1, s2, rfl⟩ := List.append_of_mem hk
      have hnd2 : (k :: (s1 ++ s2)).Nodup := List.nodup_middle.mp hnd
      rw [List.nodup_cons] at hnd2
      have hks1 : k ∉ s1 := fun hx => hnd2.1 (List.mem_append.mpr (Or.inl hx))
      have hks2 : k ∉ s2 := fun hx => hnd2.1 (List.mem_append.mpr (Or.inr hx))
      have hgs1 : ∀ c ∈ s1,
          (Buffer.get ((k, l) :: rest) c).filter p = (Buffer.get rest c).filter p := by
        intro c hc
        have hne : k ≠ c := fun h => hks1 (by rwa [← h] at hc)
        rw [Buffer.get_cons_ne hne]
      have hgs2 : ∀ c ∈ s2,
          (Buffer.get ((k, l) :: rest) c).filter p = (Buffer.get rest c).filter p := by
        intro c hc
        have hne : k ≠ c := fun h => hks2 (by rwa [← h] at hc)
        rw [Buffer.get_cons_ne hne]
      have hgk : (Buffer.get ((k, l) :: rest) k).filter p = l.filter p := by
        rw [Buffer.get_cons, if_pos rfl]
      have hgkrest : (Buffer.get rest k).filter p = [] := by
        rw [Buffer.get_eq_nil hndk.1, List.filter_nil]
      have hcovrest : ∀ e ∈ Buffer.entities rest, p e = true →
          hashPosition ps e.position ∈ s1 ++ k :: s2 :=
        fun e he hp => hcov e (hmem_cons e he) hp
      have hihperm := ih hwfrest hnd hcovrest
      rw [List.flatMap_append, List.flatMap_cons] at hihperm ⊢
      rw [flatMapCongr hgs1, flatMapCongr hgs2, hgk]
      rw [hgkrest, List.nil_append] at hihperm
      show (s1.flatMap (fun c => (Buffer.get rest c).filter p)
          ++ (l.filter p ++ s2.flatMap (fun c => (Buffer.get rest c).filter p))).Perm
        ((l ++ Buffer.entities rest).filter p)
      rw [List.filter_append]
      have h5 : (s1.flatMap (fun c => (Buffer.get rest c).filter p)
            ++ (l.filter p ++ s2.flatMap (fun c => (Buffer.get rest c).filter p))).Perm
          (l.filter p ++ (s1.flatMap (fun c => (Buffer.get rest c).filter p)
            ++ s2.flatMap (fun c => (Buffer.get rest c).filter p))) := by
        rw [← List.append_assoc, ← List.append_assoc]
        exact List.perm_append_comm.append_right _
      exact h5.trans (hihperm.append_left (l.filter p))
    · have hgs : ∀ c ∈ cells,
          (Buffer.get ((k, l) :: rest) c).filter p = (Buffer.get rest c).filter p := by
        intro c hc
        have hne : k ≠ c := fun h => hk (by rwa [← h] at hc)
        rw [Buffer.get_cons_ne hne]
      have hlf : l.filter p = [] := by
        rw [List.filter_eq_nil_iff]
        intro e he hp
        exact hk (hlk e he ▸ hcov e (List.mem_append.mpr (Or.inl he)) hp)
      have hcovrest : ∀ e ∈ Buffer.entities rest, p e = true →
          hashPosition ps e.position ∈ cells :=
        fun e he hp => hcov e (hmem_cons e he) hp
      rw [flatMapCongr hgs]
      show (cells.flatMap (fun c => (Buffer.get rest c).filter p)).Perm
        ((l ++ Buffer.entities rest).filter p)
      rw [List.filter_append, hlf, List.nil_append]
      exact ih hwfrest hnd hcovrest

/-- The radius query, under the store invariant, returns a permutation of
the stored entities passing the Euclidean filter. -/
theorem queryObjectsWithinRadius_perm {w : World} {x y radius : Int}
    (hps : 0 < w.partition_size) (hwf : Buffer.WF w.partition_size w.currentBuf)
    (hr : 0 ≤ radius) :
    (w.queryObjectsWithinRadius x y radius).Perm
      (w.getObjects.filter (withinRadius x y radius)) :=
  scan_filter_perm hwf (cellsToCheck_nodup w.partition_size x y radius)
    (fun _ _ hp => hash_mem_cellsToCheck hps hr hp)

/-! ### The tick loop: contributions, multisets and the store invariant -/

theorem insertList_nil (ps : Int) (b : Buffer) : insertList ps b [] = b := rfl

theorem insertList_cons (ps : Int) (b : Buffer) (e : Entity) (es : List Entity) :
    insertList ps b (e :: es)
      = insertList ps (Buffer.insert b (hashPosition ps e.position) e) es := rfl

theorem applyResult_many_eq (ps : Int) (l : List Elem) (next : Buffer) :
    applyResult ps next (TickResult.many l) = Except.ok (insertList ps next (entsOf l)) := by
  show Except.ok _ = _
  congr 1
  induction l generalizing next with
  | nil => rfl
  | cons el rest ih =>
    cases el with
    | ent e =>
      show List.foldl _ (Buffer.insert next (hashPosition ps e.position) e) rest
        = insertList ps next (e :: entsOf rest)
      rw [insertList_cons]
      exact ih _
    | junk =>
      show List.foldl _ next rest = insertList ps next (entsOf rest)
      exact ih next

/-- The loop body for one entity equals: compute the entity's
contribution, then insert it (or abort on the raising paths). -/
theorem processObj_eq (step : Step) (w : World) (next : Buffer) (obj : Entity) :
    processObj step w next obj
      = match contribution step w obj with
        | Except.error msg => Except.error msg
        | Except.ok es => Except.ok (insertList w.partition_size next es) := by
  unfold processObj contribution
  by_cases hd : obj.flags.death
  · rw [if_pos hd, if_pos hd]
    rfl
  · rw [if_neg hd, if_neg hd]
    cases hs : stepResult step w obj with
    | error msg => rfl
    | ok res =>
      cases res with
      | none => rfl
      | one e => rfl
      | many l => exact applyResult_many_eq w.partition_size l next

theorem entityMultiset_insertList (ps : Int) (b : Buffer) (es : List Entity) :
    Buffer.entityMultiset (insertList ps b es)
      = Buffer.entityMultiset b + (es : Multiset Entity) := by
  induction es generalizing b with
  | nil => simp [insertList_nil]
  | cons e rest ih =>
    rw [insertList_cons, ih, Buffer.entityMultiset_insert]
    rw [show ((e :: rest : List Entity) : Multiset Entity) = e ::ₘ (rest : Multiset Entity)
      from rfl]
    rw [Multiset.cons_add, Multiset.add_cons]

theorem WF_insertList {ps : Int} {b : Buffer} (es : List Entity)
    (h : Buffer.WF ps b) : Buffer.WF ps (insertList ps b es) := by
  induction es generalizing b with
  | nil => exact h
  | cons e rest ih =>
    rw [insertList_cons]
    exact ih (Buffer.WF_insert h)

theorem WF_nil (ps : Int) : Buffer.WF ps ([] : Buffer) :=
  ⟨List.nodup_nil, fun p hp => absurd hp (List.not_mem_nil p)⟩

theorem processList_cons (step : Step) (w : World) (obj : Entity) (rest : List Entity)
    (b : Buffer) :
    processList step w (obj :: rest) b
      = match processObj step w b obj with
        | Except.error msg => Except.error msg
        | Except.ok next2 => processList step w rest next2 := rfl

/-- Whether the loop completes depends only on the entities processed,
never on the buffer being filled. -/
theorem processList_isOk (step : Step) (w : World) (l : List Entity) (b1 b2 : Buffer) :
    (∃ c, processList step w l b1 = Except.ok c)
      ↔ (∃ c, processList step w l b2 = Except.ok c) := by
  induction l generalizing b1 b2 with
  | nil => exact ⟨fun _ => ⟨b2, rfl⟩, fun _ => ⟨b1, rfl⟩⟩
  | cons obj rest ih =>
    rw [processList_cons, processList_cons, processObj_eq, processObj_eq]
    cases contribution step w obj with
    | error msg => simp
    | ok es => exact ih _ _

/-- The loop completes iff no processed entity hits a raising path. -/
theorem processList_ok_iff (step : Step) (w : World) (l : List Entity) (b : Buffer) :
    (∃ c, processList step w l b = Except.ok c)
      ↔ ∀ obj ∈ l, ∃ es, contribution step w obj = Except.ok es := by
  induction l generalizing b with
  | nil => simp [processList]
  | cons obj rest ih =>
    rw [processList_cons, processObj_eq]
    cases hc : contribution step w obj with
    | error msg =>
      simp only [List.mem_cons]
      constructor
      · rintro ⟨c, hcon⟩
        exact absurd hcon (by simp)
      · intro h
        obtain ⟨es, hes⟩ := h obj (Or.inl rfl)
        rw [hc] at hes
        exact absurd hes (by simp)
    | ok es =>
      rw [ih]
      simp only [List.mem_cons]
      constructor
      · intro h
        rintro obj' (rfl | hmem)
        · exact ⟨es, hc⟩
        · exact h obj' hmem
      · intro h obj' hmem
        exact h obj' (Or.inr hmem)

/-- The multiset of entities accumulated by the loop: the starting buffer
plus every processed entity's contribution. -/
theorem processList_multiset {step : Step} {w : World} {l : List Entity} {b c : Buffer}
    (h : processList step w l b = Except.ok c) :
    Buffer.entityMultiset c
      = Buffer.entityMultiset b + (l.map (contribMultiset step w)).sum := by
  induction l generalizing b with
  | nil =>
    have hc : b = c := by
      simpa [processList] using h
    subst hc
    simp
  | cons obj rest ih =>
    rw [processList_cons, processObj_eq] at h
    cases hcon : contribution step w obj with
    | error msg =>
      rw [hcon] at h
      exact absurd h (by simp)
    | ok es =>
      rw [hcon] at h
      have := ih h
      rw [this, entityMultiset_insertList]
      rw [List.map_cons, List.sum_cons]
      rw [show contribMultiset step w obj = (es : Multiset Entity) by
        unfold contribMultiset; rw [hcon]]
      rw [add_assoc]

/-- The loop preserves the store invariant: every inserted successor is
hashed by its own position. -/
theorem processList_WF {step : Step} {w : World} {l : List Entity} {b c : Buffer}
    (hwf : Buffer.WF w.partition_size b)
    (h : processList step w l b = Except.ok c) : Buffer.WF w.partition_size c := by
  induction l generalizing b with
  | nil =>
    have hc : b = c := by simpa [processList] using h
    exact hc ▸ hwf
  | cons obj rest ih =>
    rw [processList_cons, processObj_eq] at h
    cases hcon : contribution step w obj with
    | error msg =>
      rw [hcon] at h
      exact absurd h (by simp)
    | ok es =>
      rw [hcon] at h
      exact ih (WF_insertList es hwf) h

/-- Unfolding of a successful `tickAll`: the produced world keeps the
partition size, gets the loop's output as its current buffer, and its new
generation is exactly the loop's output. -/
theorem tickAll_ok_spec {step : Step} {w w' : World} (h : tickAll step w = Except.ok w') :
    processList step w (Buffer.entities w.currentBuf) [] = Except.ok w'.currentBuf
      ∧ w'.partition_size = w.partition_size := by
  unfold tickAll at h
  cases hp : processList step w (Buffer.entities w.currentBuf) [] with
  | error msg =>
    rw [hp] at h
    exact absurd h (by simp)
  | ok next =>
    rw [hp] at h
    simp only [Except.ok.injEq] at h
    subst h
    by_cases hcur : w.current
    · rw [if_pos hcur]
      exact ⟨rfl, rfl⟩
    · rw [if_neg hcur]
      exact ⟨rfl, rfl⟩

/-- A tick completes iff its loop completes. -/
theorem tickAll_isOk (step : Step) (w : World) :
    (∃ w', tickAll step w = Except.ok w')
      ↔ ∃ c, processList step w (Buffer.entities w.currentBuf) [] = Except.ok c := by
  unfold tickAll
  cases processList step w (Buffer.entities w.currentBuf) [] with
  | error msg => simp
  | ok next => simp

/-- `add_object` appends into the current buffer under the hashed cell. -/
theorem addObject_currentBuf (w : World) (e : Entity) :
    (w.addObject e).currentBuf
      = Buffer.insert w.currentBuf (hashPosition w.partition_size e.position) e := by
  unfold World.addObject World.currentBuf
  by_cases hcur : w.current
  · simp [hcur]
  · simp [hcur]

theorem mem_map_sum {l : List Entity} {f : Entity → Multiset Entity} {obj : Entity}
    {a : Entity} (hobj : obj ∈ l) (ha : a ∈ f obj) : a ∈ (l.map f).sum := by
  induction l with
  | nil => simp at hobj
  | cons x rest ih =>
    rw [List.map_cons, List.sum_cons, Multiset.mem_add]
    rcases List.mem_cons.mp hobj with rfl | hmem
    · exact Or.inl ha
    · exact Or.inr (ih hmem)

theorem mem_sum_exists {l : List Entity} {f : Entity → Multiset Entity} {a : Entity}
    (ha : a ∈ (l.map f).sum) : ∃ obj ∈ l, a ∈ f obj := by
  induction l with
  | nil => simp at ha
  | cons x rest ih =>
    rw [List.map_cons, List.sum_cons, Multiset.mem_add] at ha
    rcases ha with h | h
    · exact ⟨x, List.mem_cons_self _ _, h⟩
    · obtain ⟨obj, hobj, hf⟩ := ih h
      exact ⟨obj, List.mem_cons_of_mem _ hobj, hf⟩

/-- An `ok` contribution is either a skipped death-flagged entity's empty
contribution, or the entities of a successfully computed update result. -/
theorem contribution_ok_cases {step : Step} {w : World} {obj : Entity} {es : List Entity}
    (h : contribution step w obj = Except.ok es) :
    es = [] ∨ (obj.flags.death = false
      ∧ ∃ res, stepResult step w obj = Except.ok res ∧ es = TickResult.entities res) := by
  unfold contribution at h
  by_cases hd : obj.flags.death
  · rw [if_pos hd] at h
    left
    injection h with h
    exact h.symm
  · rw [if_neg hd] at h
    have hd' : obj.flags.death = false := by
      cases hb : obj.flags.death
      · rfl
      · exact absurd hb hd
    cases hs : stepResult step w obj with
    | error msg =>
      rw [hs] at h
      exact absurd h (by simp)
    | ok res =>
      rw [hs] at h
      right
      injection h with h
      exact ⟨hd', res, rfl, h.symm⟩

/-- The contribution of a live entity whose update returned a list. -/
theorem contribution_of_many {step : Step} {w : World} {obj : Entity} {lst : List Elem}
    (hd : obj.flags.death = false)
    (hs : stepResult step w obj = Except.ok (TickResult.many lst)) :
    contribution step w obj = Except.ok (entsOf lst) := by
  unfold contribution
  rw [if_neg (by rw [hd]; exact Bool.false_ne_true), hs]
  rfl

/-! ### `list.remove` by identity -/

theorem removeFirstById_isSome {l : List Entity} {t : Nat}
    (h : ∃ e ∈ l, e.eid = t) : ∃ l', removeFirstById l t = some l' := by
  induction l with
  | nil => simp at h
  | cons e rest ih =>
    rw [show removeFirstById (e :: rest) t
      = if e.eid = t then some rest
        else (removeFirstById rest t).map (fun r => e :: r) from rfl]
    by_cases he : e.eid = t
    · rw [if_pos he]
      exact ⟨rest, rfl⟩
    · rw [if_neg he]
      obtain ⟨x, hx, hxt⟩ := h
      rcases List.mem_cons.mp hx with rfl | hx'
      · exact absurd hxt he
      · obtain ⟨l', hl'⟩ := ih ⟨x, hx', hxt⟩
        rw [hl']
        exact ⟨e :: l', rfl⟩

theorem removeFirstById_spec {l l' : List Entity} {t : Nat}
    (h : removeFirstById l t = some l') :
    ∃ s1 e s2, l = s1 ++ e :: s2 ∧ l' = s1 ++ s2 ∧ e.eid = t ∧ ∀ x ∈ s1, x.eid ≠ t := by
  induction l generalizing l' with
  | nil => simp [removeFirstById] at h
  | cons e rest ih =>
    rw [show removeFirstById (e :: rest) t
      = if e.eid = t then some rest
        else (removeFirstById rest t).map (fun r => e :: r) from rfl] at h
    by_cases he : e.eid = t
    · rw [if_pos he] at h
      injection h with h
      exact ⟨[], e, rest, by simp, by simp [h.symm], he, by simp⟩
    · rw [if_neg he] at h
      cases hr : removeFirstById rest t with
      | none =>
        rw [hr] at h
        exact absurd h (by simp)
      | some r =>
        rw [hr] at h
        simp only [Option.map_some'] at h
        injection h with h
        obtain ⟨s1, e', s2, hl, hr', ht, hs1⟩ := ih hr
        refine ⟨e :: s1, e', s2, by rw [hl]; rfl, by rw [← h, hr']; rfl, ht, ?_⟩
        intro x hx
        rcases List.mem_cons.mp hx with rfl | hx'
        · exact he
        · exact hs1 x hx'

/-- Characterisation of the neighbour list `tick_all` passes to a
`can_interact` entity's update: the radius query with the first (unique)
identity-match removed — exactly the other stored entities within the
Euclidean filter, death-flagged or not. -/
theorem interactableFor_spec {w : World} {obj : Entity}
    (hps : 0 < w.partition_size) (hwf : Buffer.WF w.partition_size w.currentBuf)
    (hnodup : (w.getObjects.map Entity.eid).Nodup)
    (hobj : obj ∈ w.getObjects) (hr : 0 ≤ obj.interaction_radius) :
    ∃ l, w.interactableFor obj = some l
      ∧ ∀ e, (e ∈ l ↔ e ∈ w.getObjects ∧ e.eid ≠ obj.eid
          ∧ withinRadius obj.position.x obj.position.y obj.interaction_radius e = true) := by
  have hperm : (w.queryObjectsWithinRadius obj.position.x obj.position.y
        obj.interaction_radius).Perm
      (w.getObjects.filter
        (withinRadius obj.position.x obj.position.y obj.interaction_radius)) :=
    queryObjectsWithinRadius_perm hps hwf hr
  have hself : withinRadius obj.position.x obj.position.y obj.interaction_radius obj
      = true := by
    unfold withinRadius
    rw [decide_eq_true_eq]
    have h0 : obj.position.x - obj.position.x = 0 := by omega
    have h1 : obj.position.y - obj.position.y = 0 := by omega
    rw [h0, h1]
    simpa using mul_self_nonneg obj.interaction_radius
  have hmemq : ∀ e, e ∈ w.queryObjectsWithinRadius obj.position.x obj.position.y
        obj.interaction_radius
      ↔ e ∈ w.getObjects ∧ withinRadius obj.position.x obj.position.y
          obj.interaction_radius e = true := by
    intro e
    rw [hperm.mem_iff, List.mem_filter]
  have hqnodup : ((w.queryObjectsWithinRadius obj.position.x obj.position.y
      obj.interaction_radius).map Entity.eid).Nodup := by
    refine List.Nodup.perm ?_ ((hperm.map Entity.eid).symm)
    exact List.Nodup.sublist (List.Sublist.map Entity.eid (List.filter_sublist _)) hnodup
  obtain ⟨l, hl⟩ := removeFirstById_isSome
    ⟨obj, (hmemq obj).mpr ⟨hobj, hself⟩, rfl⟩
  obtain ⟨s1, e0, s2, hq, hl', ht, hs1⟩ := removeFirstById_spec hl
  refine ⟨l, hl, ?_⟩
  intro e
  have hqnodup2 : ((s1 ++ e0 :: s2).map Entity.eid).Nodup := by
    rw [← hq]
    exact hqnodup
  rw [List.map_append, List.map_cons] at hqnodup2
  have hmid := List.nodup_middle.mp hqnodup2
  rw [List.nodup_cons] at hmid
  have hnotin : e0.eid ∉ s1.map Entity.eid ++ s2.map Entity.eid := hmid.1
  constructor
  · intro hel
    rw [hl'] at hel
    have helq : e ∈ w.queryObjectsWithinRadius obj.position.x obj.position.y
        obj.interaction_radius := by
      rw [hq]
      rcases List.mem_append.mp hel with h | h
      · exact List.mem_append.mpr (Or.inl h)
      · exact List.mem_append.mpr (Or.inr (List.mem_cons_of_mem _ h))
    have hene : e.eid ≠ obj.eid := by
      intro heq
      apply hnotin
      rw [ht]
      rw [← heq]
      rcases List.mem_append.mp hel with h | h
      · exact List.mem_append.mpr (Or.inl (List.mem_map.mpr ⟨e, h, rfl⟩))
      · exact List.mem_append.mpr (Or.inr (List.mem_map.mpr ⟨e, h, rfl⟩))
    obtain ⟨hg, hwr⟩ := (hmemq e).mp helq
    exact ⟨hg, hene, hwr⟩
  · rintro ⟨hg, hene, hwr⟩
    have helq : e ∈ w.queryObjectsWithinRadius obj.position.x obj.position.y
        obj.interaction_radius := (hmemq e).mpr ⟨hg, hwr⟩
    rw [hq] at helq
    rw [hl']
    rcases List.mem_append.mp helq with h | h
    · exact List.mem_append.mpr (Or.inl h)
    · rcases List.mem_cons.mp h with rfl | h'
      · exact absurd (ht ▸ rfl) hene
      · exact List.mem_append.mpr (Or.inr h')

theorem mem_entityMultiset {b : Buffer} {a : Entity} :
    a ∈ Buffer.entityMultiset b ↔ a ∈ Buffer.entities b := Multiset.mem_coe

theorem addObject_partition_size (w : World) (e : Entity) :
    (w.addObject e).partition_size = w.partition_size := by
  unfold World.addObject
  by_cases hcur : w.current
  · simp [hcur]
  · simp [hcur]

/-! ### Lemmas about the live-object model -/

theorem refGet_eq_nil {b : RefBuffer} {c : Cell} (h : c ∉ b.map Prod.fst) :
    RefBuffer.get b c = [] := by
  induction b with
  | nil => rfl
  | cons p rest ih =>
    obtain ⟨k, l⟩ := p
    simp only [List.map_cons, List.mem_cons] at h
    unfold RefBuffer.get
    rw [if_neg (by tauto)]
    exact ih (by tauto)

theorem refGet_cons {k : Cell} {l : List Ref} {rest : RefBuffer} {c : Cell} :
    RefBuffer.get ((k, l) :: rest) c = if k = c then l else RefBuffer.get rest c := rfl

theorem refGet_cons_ne {k : Cell} {l : List Ref} {rest : RefBuffer} {c : Cell}
    (h : k ≠ c) : RefBuffer.get ((k, l) :: rest) c = RefBuffer.get rest c := by
  rw [refGet_cons, if_neg h]

/-- The live-store scan lemma: scanning any duplicate-free cell list that
covers the (live) cells of all references matching the filter collects
exactly the stored matching references, up to order.  `key` abstracts the
cell a reference currently belongs to (its live position's hash). -/
theorem refScan_filter_perm {key : Ref → Cell} {b : RefBuffer} {p : Ref → Bool}
    {cells : List Cell}
    (hkeys : (b.map Prod.fst).Nodup)
    (hcell : ∀ q ∈ b, ∀ r ∈ q.2, key r = q.1)
    (hnd : cells.Nodup)
    (hcov : ∀ r ∈ RefBuffer.refs b, p r = true → key r ∈ cells) :
    (cells.flatMap (fun c => (RefBuffer.get b c).filter p)).Perm
      ((RefBuffer.refs b).filter p) := by
  induction b generalizing cells with
  | nil =>
    have h1 : cells.flatMap (fun c => (RefBuffer.get ([] : RefBuffer) c).filter p)
        = cells.flatMap (fun _ => ([] : List Ref)) := flatMapCongr (fun a _ => rfl)
    rw [h1, flatMap_nil_fun]
    exact List.Perm.refl _
  | cons entry rest ih =>
    obtain ⟨k, l⟩ := entry
    simp only [List.map_cons, List.nodup_cons] at hkeys
    have hcellrest : ∀ q ∈ rest, ∀ r ∈ q.2, key r = q.1 :=
      fun q hq => hcell q (List.mem_cons_of_mem _ hq)
    have hlk : ∀ r ∈ l, key r = k := hcell (k, l) (List.mem_cons_self _ _)
    have hmem_cons : ∀ r ∈ RefBuffer.refs rest, r ∈ RefBuffer.refs ((k, l) :: rest) := by
      intro r hr
      show r ∈ l ++ RefBuffer.refs rest
      exact List.mem_append.mpr (Or.inr hr)
    by_cases hk : k ∈ cells
    · obtain ⟨s1, s2, rfl⟩ := List.append_of_mem hk
      have hnd2 : (k :: (s1 ++ s2)).Nodup := List.nodup_middle.mp hnd
      rw [List.nodup_cons] at hnd2
      have hks1 : k ∉ s1 := fun hx => hnd2.1 (List.mem_append.mpr (Or.inl hx))
      have hks2 : k ∉ s2 := fun hx => hnd2.1 (List.mem_append.mpr (Or.inr hx))
      have hgs1 : ∀ c ∈ s1,
          (RefBuffer.get ((k, l) :: rest) c).filter p = (RefBuffer.get rest c).filter p := by
        intro c hc
        have hne : k ≠ c := fun h => hks1 (by rwa [← h] at hc)
        rw [refGet_cons_ne hne]
      have hgs2 : ∀ c ∈ s2,
          (RefBuffer.get ((k, l) :: rest) c).filter p = (RefBuffer.get rest c).filter p := by
        intro c hc
        have hne : k ≠ c := fun h => hks2 (by rwa [← h] at hc)
        rw [refGet_cons_ne hne]
      have hgk : (RefBuffer.get ((k, l) :: rest) k).filter p = l.filter p := by
        rw [refGet_cons, if_pos rfl]
      have hgkrest : (RefBuffer.get rest k).filter p = [] := by
        rw [refGet_eq_nil hkeys.1, List.filter_nil]
      have hcovrest : ∀ r ∈ RefBuffer.refs rest, p r = true → key r ∈ s1 ++ k :: s2 :=
        fun r hr hp => hcov r (hmem_cons r hr) hp
      have hihperm := ih hkeys.2 hcellrest hnd hcovrest
      rw [List.flatMap_append, List.flatMap_cons] at hihperm ⊢
      rw [flatMapCongr hgs1, flatMapCongr hgs2, hgk]
      rw [hgkrest, List.nil_append] at hihperm
      show (s1.flatMap (fun c => (RefBuffer.get rest c).filter p)
          ++ (l.filter p ++ s2.flatMap (fun c => (RefBuffer.get rest c).filter p))).Perm
        ((l ++ RefBuffer.refs rest).filter p)
      rw [List.filter_append]
      have h5 : (s1.flatMap (fun c => (RefBuffer.get rest c).filter p)
            ++ (l.filter p ++ s2.flatMap (fun c => (RefBuffer.get rest c).filter p))).Perm
          (l.filter p ++ (s1.flatMap (fun c => (RefBuffer.get rest c).filter p)
            ++ s2.flatMap (fun c => (RefBuffer.get rest c).filter p))) := by
        rw [← List.append_assoc, ← List.append_assoc]
        exact List.perm_append_comm.append_right _
      exact h5.trans (hihperm.append_left (l.filter p))
    · have hgs : ∀ c ∈ cells,
          (RefBuffer.get ((k, l) :: rest) c).filter p = (RefBuffer.get rest c).filter p := by
        intro c hc
        have hne : k ≠ c := fun h => hk (by rwa [← h] at hc)
        rw [refGet_cons_ne hne]
      have hlf : l.filter p = [] := by
        rw [List.filter_eq_nil_iff]
        intro r hr hp
        exact hk (hlk r hr ▸ hcov r (List.mem_append.mpr (Or.inl hr)) hp)
      have hcovrest : ∀ r ∈ RefBuffer.refs rest, p r = true → key r ∈ cells :=
        fun r hr hp => hcov r (hmem_cons r hr) hp
      rw [flatMapCongr hgs]
      show (cells.flatMap (fun c => (RefBuffer.get rest c).filter p)).Perm
        ((l ++ RefBuffer.refs rest).filter p)
      rw [List.filter_append, hlf, List.nil_append]
      exact ih hkeys.2 hcellrest hnd hcovrest

/-- The mid-tick radius query, whenever the live store satisfies the cell
invariant, returns a permutation of the stored references whose live
positions pass the Euclidean filter. -/
theorem queryMut_perm {ps : Int} {h : Heap} {b : RefBuffer} {x y radius : Int}
    (hps : 0 < ps) (hwf : RefBuffer.LiveWF ps h b) (hr : 0 ≤ radius) :
    (queryMut ps h b x y radius).Perm
      ((RefBuffer.refs b).filter (fun r => withinRadius x y radius (h r))) :=
  refScan_filter_perm hwf.1 hwf.2.1 (cellsToCheck_nodup ps x y radius)
    (fun _ _ hp => hash_mem_cellsToCheck hps hr hp)

theorem removeFirstRef_isSome {l : List Ref} {t : Ref}
    (h : t ∈ l) : ∃ l2, removeFirstRef l t = some l2 := by
  induction l with
  | nil => simp at h
  | cons r rest ih =>
    rw [show removeFirstRef (r :: rest) t
      = if r = t then some rest
        else (removeFirstRef rest t).map (fun u => r :: u) from rfl]
    by_cases hrt : r = t
    · rw [if_pos hrt]
      exact ⟨rest, rfl⟩
    · rw [if_neg hrt]
      rcases List.mem_cons.mp h with heq | hmem
      · exact absurd heq.symm hrt
      · obtain ⟨l2, hl2⟩ := ih hmem
        rw [hl2]
        exact ⟨r :: l2, rfl⟩

theorem removeFirstRef_spec {l l2 : List Ref} {t : Ref}
    (h : removeFirstRef l t = some l2) :
    ∃ s1 s2, l = s1 ++ t :: s2 ∧ l2 = s1 ++ s2 ∧ t ∉ s1 := by
  induction l generalizing l2 with
  | nil => simp [removeFirstRef] at h
  | cons r rest ih =>
    rw [show removeFirstRef (r :: rest) t
      = if r = t then some rest
        else (removeFirstRef rest t).map (fun u => r :: u) from rfl] at h
    by_cases hrt : r = t
    · subst hrt
      rw [if_pos rfl] at h
      injection h with h
      exact ⟨[], rest, by simp, by simp [h.symm], by simp⟩
    · rw [if_neg hrt] at h
      cases hm : removeFirstRef rest t with
      | none =>
        rw [hm] at h
        exact absurd h (by simp)
      | some u =>
        rw [hm] at h
        simp only [Option.map_some'] at h
        injection h with h
        obtain ⟨s1, s2, hl, hu, hts1⟩ := ih hm
        refine ⟨r :: s1, s2, by rw [hl]; rfl, by rw [← h, hu]; rfl, ?_⟩
        intro hx
        rcases List.mem_cons.mp hx with heq | hx2
        · exact hrt heq.symm
        · exact hts1 hx2

/-- Characterisation of the neighbour list passed to a reference's update
at the moment it is processed, over the *live* store: whenever that live
store still satisfies the cell invariant, the list contains exactly the
other stored references whose live positions lie within the entity's
interaction radius — death-flagged or not, excluded only by identity. -/
theorem interactableMutFor_spec {ps : Int} {h : Heap} {b : RefBuffer} {r : Ref}
    (hps : 0 < ps) (hwf : RefBuffer.LiveWF ps h b)
    (hr : r ∈ RefBuffer.refs b) (hrad : 0 ≤ (h r).interaction_radius) :
    ∃ l, interactableMutFor ps h b r = some l
      ∧ ∀ r2, (r2 ∈ l ↔ r2 ∈ RefBuffer.refs b ∧ r2 ≠ r
          ∧ withinRadius (h r).position.x (h r).position.y (h r).interaction_radius (h r2)
              = true) := by
  have hperm : (queryMut ps h b (h r).position.x (h r).position.y
        (h r).interaction_radius).Perm
      ((RefBuffer.refs b).filter
        (fun r2 => withinRadius (h r).position.x (h r).position.y
          (h r).interaction_radius (h r2))) := queryMut_perm hps hwf hrad
  have hself : withinRadius (h r).position.x (h r).position.y
      (h r).interaction_radius (h r) = true := by
    unfold withinRadius
    rw [decide_eq_true_eq]
    have h0 : (h r).position.x - (h r).position.x = 0 := by omega
    have h1 : (h r).position.y - (h r).position.y = 0 := by omega
    rw [h0, h1]
    simpa using mul_self_nonneg (h r).interaction_radius
  have hmemq : ∀ r2, r2 ∈ queryMut ps h b (h r).position.x (h r).position.y
        (h r).interaction_radius
      ↔ r2 ∈ RefBuffer.refs b ∧ withinRadius (h r).position.x (h r).position.y
          (h r).interaction_radius (h r2) = true := by
    intro r2
    rw [hperm.mem_iff, List.mem_filter]
  have hqnodup : (queryMut ps h b (h r).position.x (h r).position.y
      (h r).interaction_radius).Nodup :=
    List.Nodup.perm (List.Nodup.sublist (List.filter_sublist _) hwf.2.2) hperm.symm
  obtain ⟨l, hl⟩ := removeFirstRef_isSome ((hmemq r).mpr ⟨hr, hself⟩)
  obtain ⟨s1, s2, hq, hl2, hts1⟩ := removeFirstRef_spec hl
  have hnds : (s1 ++ r :: s2).Nodup := hq ▸ hqnodup
  have hnds2 : (r :: (s1 ++ s2)).Nodup := List.nodup_middle.mp hnds
  rw [List.nodup_cons] at hnds2
  refine ⟨l, hl, ?_⟩
  intro r2
  constructor
  · intro hmem
    rw [hl2] at hmem
    have hne : r2 ≠ r := by
      intro heq
      subst heq
      exact hnds2.1 hmem
    have hq2 : r2 ∈ queryMut ps h b (h r).position.x (h r).position.y
        (h r).interaction_radius := by
      rw [hq]
      rcases List.mem_append.mp hmem with h2 | h2
      · exact List.mem_append.mpr (Or.inl h2)
      · exact List.mem_append.mpr (Or.inr (List.mem_cons_of_mem _ h2))
    obtain ⟨hg, hwr⟩ := (hmemq r2).mp hq2
    exact ⟨hg, hne, hwr⟩
  · rintro ⟨hg, hne, hwr⟩
    have hq2 : r2 ∈ queryMut ps h b (h r).position.x (h r).position.y
        (h r).interaction_radius := (hmemq r2).mpr ⟨hg, hwr⟩
    rw [hq] at hq2
    rw [hl2]
    rcases List.mem_append.mp hq2 with h2 | h2
    · exact List.mem_append.mpr (Or.inl h2)
    · rcases List.mem_cons.mp h2 with heq | h3
      · exact absurd heq hne
      · exact List.mem_append.mpr (Or.inr h3)

/-! ### The claims -/

/-- For *pure* update behaviours — updates that are functions of the
entity value and its neighbour list, with no in-place mutation — the
`tick_all` loop is iteration-order independent: processing any
permutation of the current generation succeeds exactly when `tick_all`
succeeds and produces the identical next-generation multiset.  This
isolates the in-place mutation of live objects (see `tickAllMut`) as the
sole source of the order dependence the program actually exhibits. -/
theorem pure_update_order_independence (step : Step) (w : World) (l : List Entity)
    (hperm : l.Perm (Buffer.entities w.currentBuf)) :
    ((∃ b, processList step w l [] = Except.ok b) ↔ ∃ w', tickAll step w = Except.ok w')
    ∧ ∀ b w', processList step w l [] = Except.ok b → tickAll step w = Except.ok w' →
        Buffer.entityMultiset b = Buffer.entityMultiset w'.currentBuf := by
  constructor
  · rw [tickAll_isOk, processList_ok_iff, processList_ok_iff]
    constructor
    · intro h obj hobj
      exact h obj (hperm.mem_iff.mpr hobj)
    · intro h obj hobj
      exact h obj (hperm.mem_iff.mp hobj)
  · intro b w' hb hw
    obtain ⟨hpl, _⟩ := tickAll_ok_spec hw
    rw [processList_multiset hb, processList_multiset hpl]
    congr 1
    exact List.Perm.sum_eq (hperm.map (contribMultiset step w))

/-- The pure-update order independence, evaluated: a two-entity world
ticked in the stored order and in the reversed order yields equal
next-generation multisets. -/
theorem pure_update_order_independence_example :
    [entC1b, entC1a].Perm (Buffer.entities wC1.currentBuf)
    ∧ Buffer.entityMultiset bC1 = Buffer.entityMultiset wC1out.currentBuf :=
  ⟨by decide,
   (pure_update_order_independence stepOne wC1 [entC1b, entC1a] (by decide)).2
     bC1 wC1out rfl rfl⟩

/-- C1 (order independence of the tick) fails on the program: `tick_all`'s
radius query reads the live current buffer while the repository's updates
mutate their objects in place and return them, so an entity processed
later in a tick observes earlier same-tick updates.  Concretely, at
partition size 10, with the mover (reference 0, at (50,0), stepping +10
in x per tick) and the neighbour-sensitive seeker (reference 1, at
(0,0), radius 50, stepping +1 in y exactly when its neighbour list is
nonempty): iterating in the stored order [0, 1] the seeker sees the
already-moved mover at (60,0) — out of range — and stays at (0,0), while
iterating [1, 0] it sees the mover at (50,0) — in range — and moves to
(0,1).  The two next-generation multisets differ, and the seeker's
update was affected by the mover's update in the same tick, refuting the
claim (and the spec's §4.2 invariant / §8 order-independence test, which
the spec states double buffering was meant to guarantee). -/
theorem claim_C1 :
    RefBuffer.refs bufMut = [0, 1]
    ∧ [(1 : Ref), 0].Perm (RefBuffer.refs bufMut)
    ∧ (tickAllMut stepMut 10 heapMut bufMut [0, 1]).map
        (fun out => nextGenEntities out.1 out.2)
      = some [entMoverMoved, entSeeker]
    ∧ (tickAllMut stepMut 10 heapMut bufMut [1, 0]).map
        (fun out => nextGenEntities out.1 out.2)
      = some [entSeekerMoved, entMoverMoved]
    ∧ ¬ (([entMoverMoved, entSeeker] : Multiset Entity)
        = ([entSeekerMoved, entMoverMoved] : Multiset Entity)) := by
  refine ⟨rfl, by decide, by decide, by decide, by decide⟩

/-- C2 counterexample: the code's radius query does not filter on the
`death` flag, so a death-flagged entity within range appears in the
neighbour list computed for a live `can_interact` entity, contradicting
"contains exactly the other live (not death-flagged) entities". -/
theorem claim_C2_counterexample :
    wC2.interactableFor entC2a = some [entC2b]
    ∧ entC2b.flags.death = true
    ∧ entC2a ∈ wC2.getObjects
    ∧ entC2a.flags.death = false
    ∧ entC2a.flags.can_interact = true
    ∧ withinRadius entC2a.position.x entC2a.position.y entC2a.interaction_radius entC2b
        = true := by
  refine ⟨?_, by decide, by decide, by decide, by decide, by decide⟩
  rfl

/-- C2 amended: during `tick_all`, the list passed to a `can_interact`
entity's update is computed from the *live* store at the moment the
entity is processed — the tick-start cell placement with the current,
possibly same-tick-mutated, object states.  Whenever that live store
still satisfies the cell invariant (so at the start of the tick, or
mid-tick as long as no earlier update has moved an object across a cell
boundary), the list contains exactly the other stored entities —
death-flagged or not — whose live positions lie within
`interaction_radius` of the entity's live position, excluding the entity
itself by identity; entities with `can_interact` false are updated with
an absent neighbour list. -/
theorem claim_C2 (ps : Int) (h : Heap) (b : RefBuffer) (r : Ref)
    (hps : 0 < ps) (hwf : RefBuffer.LiveWF ps h b)
    (hr : r ∈ RefBuffer.refs b) (hrad : 0 ≤ (h r).interaction_radius)
    (hint : (h r).flags.can_interact = true) :
    (∃ l, interactableMutFor ps h b r = some l
      ∧ ∀ r2, (r2 ∈ l ↔ r2 ∈ RefBuffer.refs b ∧ r2 ≠ r
          ∧ withinRadius (h r).position.x (h r).position.y (h r).interaction_radius
              (h r2) = true))
    ∧ ∀ (step : MutStep) (next : List (Cell × Ref)) (r3 : Ref),
        (h r3).flags.death = false → (h r3).flags.can_interact = false →
        processRef step ps b h next r3
          = some (updateHeap h r3 (step (h r3) Option.none),
              next ++ [(hashPosition ps (step (h r3) Option.none).position, r3)]) := by
  refine ⟨interactableMutFor_spec hps hwf hr hrad, ?_⟩
  intro step next r3 hd3 hi3
  unfold processRef
  rw [if_neg (by rw [hd3]; exact Bool.false_ne_true),
    if_neg (by rw [hi3]; exact Bool.false_ne_true)]

/-- Witness for C2 (amended), applied twice on the counterexample's
entity pair held as live objects: once at the tick-start store and once
at a genuinely mid-tick store in which the interacting entity has
already been mutated in place (moved within its cell) — in both, the
death-flagged co-resident is exactly the neighbour list. -/
theorem claim_C2_witness :
    (∃ l, interactableMutFor 10 heapC2m bufC2m 0 = some l
      ∧ ∀ r2, (r2 ∈ l ↔ r2 ∈ RefBuffer.refs bufC2m ∧ r2 ≠ 0
          ∧ withinRadius (heapC2m 0).position.x (heapC2m 0).position.y
              (heapC2m 0).interaction_radius (heapC2m r2) = true))
    ∧ (∃ l, interactableMutFor 10 heapC2mid bufC2m 0 = some l
      ∧ ∀ r2, (r2 ∈ l ↔ r2 ∈ RefBuffer.refs bufC2m ∧ r2 ≠ 0
          ∧ withinRadius (heapC2mid 0).position.x (heapC2mid 0).position.y
              (heapC2mid 0).interaction_radius (heapC2mid r2) = true))
    ∧ interactableMutFor 10 heapC2m bufC2m 0 = some [1]
    ∧ (heapC2m 1).flags.death = true :=
  ⟨(claim_C2 10 heapC2m bufC2m 0 (by decide) (by decide) (by decide) (by decide)
      (by decide)).1,
   (claim_C2 10 heapC2mid bufC2m 0 (by decide) (by decide) (by decide) (by decide)
      (by decide)).1,
   by decide, by decide⟩

/-- C3 (store invariant and reproduction fan-out): after `add_object` and
after any completed `tick_all` the store invariant holds — every entity
sits under the cell computed from its own position — and every entity
contained in a list returned by a live entity's update appears in the
next generation's `get_objects`. -/
theorem claim_C3 :
    (∀ (w : World) (e : Entity), Buffer.WF w.partition_size w.currentBuf →
        Buffer.WF (w.addObject e).partition_size (w.addObject e).currentBuf)
    ∧ (∀ (step : Step) (w w' : World), tickAll step w = Except.ok w' →
        Buffer.WF w'.partition_size w'.currentBuf)
    ∧ (∀ (step : Step) (w w' : World) (obj : Entity) (lst : List Elem) (a : Entity),
        tickAll step w = Except.ok w' → obj ∈ Buffer.entities w.currentBuf →
        obj.flags.death = false →
        stepResult step w obj = Except.ok (TickResult.many lst) →
        Elem.ent a ∈ lst → a ∈ w'.getObjects) := by
  refine ⟨?_, ?_, ?_⟩
  · intro w e hwf
    rw [addObject_partition_size, addObject_currentBuf]
    exact Buffer.WF_insert hwf
  · intro step w w' h
    obtain ⟨hpl, hps⟩ := tickAll_ok_spec h
    rw [hps]
    exact processList_WF (WF_nil w.partition_size) hpl
  · intro step w w' obj lst a htick hobj hd hs hmem
    obtain ⟨hpl, _⟩ := tickAll_ok_spec htick
    have hcontrib := contribution_of_many hd hs
    have ha : a ∈ entsOf lst := List.mem_filterMap.mpr ⟨Elem.ent a, hmem, rfl⟩
    have hac : a ∈ contribMultiset step w obj := by
      unfold contribMultiset
      rw [hcontrib]
      exact Multiset.mem_coe.mpr ha
    have hm : a ∈ Buffer.entityMultiset w'.currentBuf := by
      rw [processList_multiset hpl, Multiset.mem_add]
      exact Or.inr (mem_map_sum hobj hac)
    exact mem_entityMultiset.mp hm

/-- Witness for C3: a world whose single entity reproduces into
`[self, offspring]`; both successors appear, hashed by their own
positions, and the invariant holds after insertion and after the tick. -/
theorem claim_C3_witness :
    Buffer.WF (wC3.addObject entC3b).partition_size (wC3.addObject entC3b).currentBuf
    ∧ Buffer.WF wC3out.partition_size wC3out.currentBuf
    ∧ entC3a ∈ wC3out.getObjects
    ∧ entC3b ∈ wC3out.getObjects :=
  ⟨claim_C3.1 wC3 entC3b (by decide),
   claim_C3.2.1 stepRepro wC3 wC3out rfl,
   claim_C3.2.2 stepRepro wC3 wC3out entC3a [Elem.ent entC3a, Elem.ent entC3b] entC3a
     rfl (by decide) (by decide) rfl (by decide),
   claim_C3.2.2 stepRepro wC3 wC3out entC3a [Elem.ent entC3a, Elem.ent entC3b] entC3b
     rfl (by decide) (by decide) rfl (by decide)⟩

/-- C4 (radius query result set): with a positive partition size, the
store invariant, and a nonnegative radius, `query_objects_within_radius`
returns exactly (up to order) the stored entities whose squared Euclidean
distance from the centre is at most `radius²` — i.e. whose distance is at
most `radius`. -/
theorem claim_C4 (w : World) (x y radius : Int)
    (hps : 0 < w.partition_size) (hwf : Buffer.WF w.partition_size w.currentBuf)
    (hr : 0 ≤ radius) :
    (w.queryObjectsWithinRadius x y radius).Perm
      (w.getObjects.filter (withinRadius x y radius)) :=
  queryObjectsWithinRadius_perm hps hwf hr

/-- Witness for C4: the spec's own instance — partition size 10, entities
at (0,0), (5,0), (20,0); the query at (0,0) with radius 10 returns
exactly the first two. -/
theorem claim_C4_witness :
    (wC4.queryObjectsWithinRadius 0 0 10).Perm
      (wC4.getObjects.filter (withinRadius 0 0 10))
    ∧ wC4.queryObjectsWithinRadius 0 0 10 = [entC4a, entC4b]
    ∧ wC4.getObjects = [entC4a, entC4b, entC4c] :=
  ⟨claim_C4 wC4 0 0 10 (by decide) (by decide) (by decide), by decide, by decide⟩

/-- C5 counterexample: the code computes the scan extent as
`floor(radius / partition_size) + 1`, not `ceil(radius / partition_size) + 1`.
With partition size 10, centre (0,0) and radius 5, the cell (2,0) lies
within `ceil(5/10) + 1 = 2` cells of the centre cell in each axis, yet it
is not examined. -/
theorem claim_C5_counterexample :
    |(2 : Int) - Int.fdiv 0 10| ≤ ceilDiv 5 10 + 1
    ∧ |(0 : Int) - Int.fdiv 0 10| ≤ ceilDiv 5 10 + 1
    ∧ ((2, 0) : Cell) ∉ cellsToCheck 10 0 0 5 := by decide

/-- C5 amended: `query_objects_within_radius` examines exactly the cells
within `floor(radius / partition_size) + 1` (Python floor division) cells
of `cell_of((x, y))` in each axis, before applying the distance filter. -/
theorem claim_C5 (ps x y radius : Int) (c : Cell) :
    c ∈ cellsToCheck ps x y radius
      ↔ |c.1 - Int.fdiv x ps| ≤ Int.fdiv radius ps + 1
        ∧ |c.2 - Int.fdiv y ps| ≤ Int.fdiv radius ps + 1 :=
  mem_cellsToCheck

/-- C6 counterexample: `World.__init__` performs no validation, so
constructing a world with `partition_size = 0` succeeds and produces a
`World` value with non-positive partition size. -/
theorem claim_C6_counterexample :
    (World.init 0).partition_size ≤ 0 ∧ (World.init (-5)).partition_size ≤ 0 := by
  decide

/-- C6 amended: construction never fails and performs no validation:
`World(partition_size)` returns, for every `partition_size` (including
non-positive ones), the plain record storing it unchanged with two empty
buffers. -/
theorem claim_C6 (ps : Int) :
    World.init ps = { partition_size := ps, bufA := [], bufB := [], current := false } :=
  rfl

/-- C7 counterexample: an update returning a list containing a non-entity
element does not cause any error — the tick completes with `Except.ok`
and the element is silently dropped (the next generation is empty). -/
theorem claim_C7_counterexample :
    tickAll junkStep wC7 = Except.ok wC7out ∧ wC7out.getObjects = [] :=
  ⟨rfl, rfl⟩

/-- C7 amended: during `tick_all`, non-entity elements inside a list
result are skipped deterministically and silently — the insertion
completes without error and exactly the list's entity elements are
inserted into the next generation, each hashed by its own position.
(The engine validates bare results no more than list elements:
`tick_all` only reads `new_obj.position`, so a bare non-entity carrying
a position would be silently inserted too; that foreign-object path is
outside this entity-valued embedding.) -/
theorem claim_C7 (ps : Int) (next : Buffer) (l : List Elem) :
    applyResult ps next (TickResult.many l) = Except.ok (insertList ps next (entsOf l))
    ∧ Buffer.entityMultiset (insertList ps next (entsOf l))
        = Buffer.entityMultiset next + (entsOf l : Multiset Entity) :=
  ⟨applyResult_many_eq ps l next, entityMultiset_insertList ps next (entsOf l)⟩

/-- C8 (self-exclusion by identity): the neighbour list computed for an
entity with nonnegative `interaction_radius` and `can_interact = true`
never contains the entity itself, while every other stored entity passing
the distance filter — including entities at the exact same position —
remains in the list; the exclusion is by object identity (`eid`), not by
position or distance. -/
theorem claim_C8 (w : World) (obj : Entity)
    (hps : 0 < w.partition_size) (hwf : Buffer.WF w.partition_size w.currentBuf)
    (hnodup : (w.getObjects.map Entity.eid).Nodup) (hobj : obj ∈ w.getObjects)
    (hr : 0 ≤ obj.interaction_radius) (hint : obj.flags.can_interact = true) :
    ∃ l, w.interactableFor obj = some l ∧ obj ∉ l
      ∧ ∀ e ∈ w.getObjects, e.eid ≠ obj.eid →
          withinRadius obj.position.x obj.position.y obj.interaction_radius e = true →
          e ∈ l := by
  obtain ⟨l, hl, hiff⟩ := interactableFor_spec hps hwf hnodup hobj hr
  refine ⟨l, hl, ?_, ?_⟩
  · intro hmem
    exact ((hiff obj).mp hmem).2.1 rfl
  · intro e he hne hwr
    exact (hiff e).mpr ⟨he, hne, hwr⟩

/-- Witness for C8: two entities at the exact same position with radius 0;
the neighbour list of the first excludes itself but contains its
co-located twin. -/
theorem claim_C8_witness :
    (∃ l, wC8.interactableFor entC8a = some l ∧ entC8a ∉ l ∧ entC8b ∈ l)
    ∧ entC8a.position = entC8b.position
    ∧ entC8a.interaction_radius = 0 := by
  refine ⟨?_, by decide, by decide⟩
  obtain ⟨l, hl, hself, hall⟩ :=
    claim_C8 wC8 entC8a (by decide) (by decide) (by decide) (by decide) (by decide)
      (by decide)
  exact ⟨l, hl, hself, hall entC8b (by decide) (by decide) (by decide)⟩

/-- C9 (death removal): an entity whose `death` flag is set before
`tick_all` is skipped — processing it leaves the next buffer unchanged,
whatever the update behaviour, so its update is never consulted — and,
provided no live entity's update returns an entity with its identity, it
does not appear in `get_objects()` after the tick. -/
theorem claim_C9 (step : Step) (w : World) (e : Entity) (w' : World)
    (he : e ∈ Buffer.entities w.currentBuf) (hd : e.flags.death = true)
    (htick : tickAll step w = Except.ok w') :
    (∀ (stepB : Step) (next : Buffer), processObj stepB w next e = Except.ok next)
    ∧ ((∀ obj res, obj ∈ Buffer.entities w.currentBuf → obj.flags.death = false →
          stepResult step w obj = Except.ok res →
          ∀ a ∈ TickResult.entities res, a.eid ≠ e.eid)
        → e ∉ w'.getObjects) := by
  constructor
  · intro stepB next
    unfold processObj
    rw [if_pos hd]
  · intro hno hmem
    obtain ⟨hpl, _⟩ := tickAll_ok_spec htick
    have hm : e ∈ Buffer.entityMultiset w'.currentBuf := mem_entityMultiset.mpr hmem
    rw [processList_multiset hpl, Multiset.mem_add] at hm
    rcases hm with h0 | hsum
    · exact absurd (mem_entityMultiset.mp h0) (List.not_mem_nil e)
    · obtain ⟨obj, hobj, hin⟩ := mem_sum_exists hsum
      unfold contribMultiset at hin
      cases hc : contribution step w obj with
      | error msg =>
        rw [hc] at hin
        simp at hin
      | ok es =>
        rw [hc] at hin
        rcases contribution_ok_cases hc with rfl | ⟨hdobj, res, hsres, rfl⟩
        · simp at hin
        · exact hno obj res hobj hdobj hsres e (Multiset.mem_coe.mp hin) rfl

/-- Witness for C9: a dead and a live entity; the dead one contributes
nothing under any update behaviour and is gone after the tick. -/
theorem claim_C9_witness :
    (∀ (stepB : Step) (next : Buffer), processObj stepB wC9 next entC9dead = Except.ok next)
    ∧ entC9dead ∉ wC9out.getObjects := by
  have h := claim_C9 stepOne wC9 entC9dead wC9out (by decide) (by decide) rfl
  refine ⟨h.1, h.2 ?_⟩
  intro obj res hobj hdobj hsres a ha
  have hobj2 : obj = entC9dead ∨ obj = entC9live := by
    have hm : obj ∈ [entC9dead, entC9live] := hobj
    simpa using hm
  rcases hobj2 with rfl | rfl
  · exact absurd hdobj (by decide)
  · have h2 : Except.ok (TickResult.one entC9live) = Except.ok res := hsres
    injection h2 with h2
    subst h2
    have ha2 : a ∈ [entC9live] := ha
    have ha3 : a = entC9live := by simpa using ha2
    subst ha3
    decide

/-- C10 (degenerate rectangle query): an inverted rectangle
(`x1 > x2` or `y1 > y2`) yields the empty list — the position filter is
unsatisfiable, whatever cells are scanned. -/
theorem claim_C10 (w : World) (x1 y1 x2 y2 : Int) (h : x2 < x1 ∨ y2 < y1) :
    w.queryObjectsInRange x1 y1 x2 y2 = [] := by
  unfold World.queryObjectsInRange
  have hfilter : ∀ lst : List Entity,
      lst.filter (fun e => decide (x1 ≤ e.position.x ∧ e.position.x ≤ x2
        ∧ y1 ≤ e.position.y ∧ e.position.y ≤ y2)) = [] := by
    intro lst
    rw [List.filter_eq_nil_iff]
    intro e _ hp
    rw [decide_eq_true_eq] at hp
    rcases h with h | h <;> omega
  have hinner : ∀ cx ∈ intRange (Int.fdiv x1 w.partition_size)
      (Int.fdiv x2 w.partition_size + 1),
      (intRange (Int.fdiv y1 w.partition_size) (Int.fdiv y2 w.partition_size + 1)).flatMap
        (fun cy => (Buffer.get w.currentBuf (cx, cy)).filter
          (fun e => decide (x1 ≤ e.position.x ∧ e.position.x ≤ x2
            ∧ y1 ≤ e.position.y ∧ e.position.y ≤ y2)))
      = [] := by
    intro cx _
    rw [flatMapCongr (fun cy _ => hfilter _), flatMap_nil_fun]
  rw [flatMapCongr hinner, flatMap_nil_fun]

/-- Witness for C10: a populated world queried with an inverted
rectangle returns nothing. -/
theorem claim_C10_witness :
    ((3 : Int) < 5 ∨ (0 : Int) < 0) ∧ wC10.queryObjectsInRange 5 0 3 0 = [] :=
  ⟨Or.inl (by decide), claim_C10 wC10 5 0 3 0 (Or.inl (by decide))⟩

end DynAbs
